import Mathlib

/-!
Verification development for the hundredeyes wallet engine
(src/wallet/database.ts and collaborators).

The TypeScript source is shallowly embedded: Dexie tables become Lean
lists of row structures keyed by their primary hash (`put` is an upsert
on that key), monetary amounts are `Nat`, content hashes are modelled by
injective Lean structures (a collision-free hash black box), and network
round trips appear as explicit oracle functions passed to each
operation.
-/

namespace Hundredeyes

/-! ## Transfer status (transfers.status, a tagged union in docs.ts) -/

/-- Status of a stored transfer: `PENDING`, `ACKNOWLEDGED` (carrying the
server acknowledgement) or `CONFLICTED`. -/
inductive TStatus where
  | pending
  | acknowledged (ack : Nat)
  | conflicted
deriving DecidableEq, Repr

/-- The `status.kind` discriminant string used by the Dexie index
`transfers: 'hash, ..., status.kind, ...'`. -/
def TStatus.kind : TStatus → String
  | .pending => "PENDING"
  | .acknowledged _ => "ACKNOWLEDGED"
  | .conflicted => "CONFLICTED"

/-! ## Row types (docs.ts shapes, with content hashes as `Nat`) -/

/-- A coin row (`Docs.Coin`): primary key `hash`, plus the magnitude and
the claim provenance recorded by `processClaimResponse`. -/
structure CoinDoc where
  hash : Nat
  magnitude : Nat
  claimHash : Nat
  blindingNonce : Nat
deriving DecidableEq, Repr

/-- A coin as embedded in a transfer's `inputs` POD: the owner public
key and the coin hash. -/
structure CoinPod where
  owner : Nat
  hash : Nat
deriving DecidableEq, Repr

/-- A transfer row (`Docs.Transfer`): primary key `hash`, the input coin
PODs, the denormalized `coinHashes` index, output bounty hashes, the
optional hookout hash, the status and the creation time. -/
structure TransferDoc where
  hash : Nat
  inputs : List CoinPod
  coinHashes : List Nat
  bountyHashes : List Nat
  hookoutHash : Option Nat
  status : TStatus
  created : Nat
deriving DecidableEq, Repr

/-! ## The transfers table: a list of rows, `put` = upsert keyed by `hash` -/

/-- Dexie `transfers.put`: replace the row(s) with the same primary key
`hash`, or append when the key is not present. -/
def putTransfer (t : TransferDoc) (tbl : List TransferDoc) : List TransferDoc :=
  if tbl.any (fun x => x.hash = t.hash) then
    tbl.map (fun x => if x.hash = t.hash then t else x)
  else tbl ++ [t]

/-- Dexie `transfers.get` by primary key. -/
def getTransfer (tbl : List TransferDoc) (h : Nat) : Option TransferDoc :=
  tbl.find? (fun t => t.hash = h)

/-- A table respects its primary key: no two rows share a `hash`. -/
def NoDupKeys (tbl : List TransferDoc) : Prop :=
  (tbl.map (fun t => t.hash)).Nodup

instance : DecidablePred NoDupKeys := fun tbl => by
  unfold NoDupKeys; infer_instance

/-! ## listUnspent (database.ts lines 268-283) -/

/-- The set (here: list, membership-equivalent) of coin hashes referenced
by some transfer whose `status.kind` is not `'CONFLICTED'` — the
`spentCoinHashes` set built by `listUnspent`. -/
def spentCoinHashes (transfers : List TransferDoc) : List Nat :=
  ((transfers.filter (fun t => decide (t.status.kind ≠ "CONFLICTED"))).map
    (fun t => t.coinHashes)).flatten

/-- `listUnspent`: all coins whose hash is not in `spentCoinHashes`. -/
def listUnspent (coins : List CoinDoc) (transfers : List TransferDoc) : List CoinDoc :=
  coins.filter (fun c => decide (c.hash ∉ spentCoinHashes transfers))

lemma mem_spentCoinHashes {transfers : List TransferDoc} {h : Nat} :
    h ∈ spentCoinHashes transfers ↔
      ∃ t ∈ transfers, t.status.kind ≠ "CONFLICTED" ∧ h ∈ t.coinHashes := by
  unfold spentCoinHashes
  simp only [List.mem_flatten, List.mem_map, List.mem_filter, decide_eq_true_eq]
  constructor
  · rintro ⟨l, ⟨t, ⟨ht, hk⟩, rfl⟩, hmem⟩
    exact ⟨t, ht, hk, hmem⟩
  · rintro ⟨t, ht, hk, hmem⟩
    exact ⟨t.coinHashes, ⟨t, ⟨ht, hk⟩, rfl⟩, hmem⟩

lemma mem_listUnspent {coins : List CoinDoc} {transfers : List TransferDoc} {c : CoinDoc} :
    c ∈ listUnspent coins transfers ↔
      c ∈ coins ∧ ∀ t ∈ transfers, t.status.kind ≠ "CONFLICTED" → c.hash ∉ t.coinHashes := by
  unfold listUnspent
  rw [List.mem_filter]
  constructor
  · rintro ⟨hc, hdec⟩
    refine ⟨hc, ?_⟩
    intro t ht hk hmem
    exact (of_decide_eq_true hdec) (mem_spentCoinHashes.mpr ⟨t, ht, hk, hmem⟩)
  · rintro ⟨hc, hall⟩
    refine ⟨hc, decide_eq_true ?_⟩
    intro hmem
    obtain ⟨t, ht, hk, hmu⟩ := mem_spentCoinHashes.mp hmem
    exact hall t ht hk hmu

/-- Membership after an upsert: every row of `putTransfer t tbl` is
either `t` itself or an old row whose key differs from `t.hash`. -/
lemma mem_putTransfer {t x : TransferDoc} {tbl : List TransferDoc}
    (hx : x ∈ putTransfer t tbl) : x = t ∨ (x ∈ tbl ∧ x.hash ≠ t.hash) := by
  unfold putTransfer at hx
  by_cases hany : tbl.any (fun y => y.hash = t.hash)
  · rw [if_pos hany] at hx
    obtain ⟨y, hy, hxy⟩ := List.mem_map.mp hx
    by_cases hkey : y.hash = t.hash
    · left; rw [if_pos (by simpa using hkey)] at hxy; exact hxy.symm
    · right
      rw [if_neg (by simpa using hkey)] at hxy
      exact ⟨hxy ▸ hy, hxy ▸ hkey⟩
  · rw [if_neg hany] at hx
    rcases List.mem_append.mp hx with hx | hx
    · right
      refine ⟨hx, ?_⟩
      intro hkey
      exact hany (List.any_eq_true.mpr ⟨x, hx, by simpa using hkey⟩)
    · left; simpa using hx

/-! ## discardTransfer (lines 495-503) and finalizeTransfer (lines 505-580) -/

/-- A structured server error (`RequestError`), carrying the machine-readable
message and the HTTP-like status code. -/
structure RequestErr where
  message : String
  statusCode : Nat
deriving DecidableEq, Repr

/-- The server-side acknowledged transfer fetched by `lookupTransfer`:
hash, inputs, acknowledgement and outputs. -/
structure AckTransfer where
  hash : Nat
  inputs : List CoinPod
  acknowledgement : Nat
  bountyHashes : List Nat
  hookoutHash : Option Nat
deriving DecidableEq, Repr

/-- The local row `conflictTransferDoc` that `finalizeTransfer` builds for a
conflicting transfer reported by the server: stored with status
`ACKNOWLEDGED` and `coinHashes` taken from the conflicting transfer's
inputs. -/
def conflictTransferDoc (ct : AckTransfer) (now : Nat) : TransferDoc :=
  { hash := ct.hash
    inputs := ct.inputs
    coinHashes := ct.inputs.map (fun coin => coin.hash)
    bountyHashes := ct.bountyHashes
    hookoutHash := ct.hookoutHash
    status := .acknowledged ct.acknowledgement
    created := now }

/-- `discardTransfer`: refuse unless the transfer is `PENDING`; otherwise
rewrite its status to `CONFLICTED` and put it back. -/
def discardTransfer (d : TransferDoc) (transfers : List TransferDoc) :
    Except String (List TransferDoc) :=
  if d.status.kind ≠ "PENDING" then .error "transfer must be pending"
  else .ok (putTransfer { d with status := .conflicted } transfers)

/-- Caller-visible outcome of `finalizeTransfer`: the state-precondition
violation, a surfaced server error, or success. -/
inductive FinalizeOutcome where
  | invalidState
  | serverError (e : RequestErr)
  | ok
deriving DecidableEq, Repr

/-- The `INPUT_SPENT` loop of `finalizeTransfer`: for every input coin ask the
server which transfer consumed it (`lookupCoin`), fetch that transfer
(`lookupTransfer`) and store it locally as `ACKNOWLEDGED`. -/
def reconcileInputs (lookupCoin : Nat → Option Nat)
    (lookupTransfer : Nat → Option AckTransfer) (now : Nat)
    (inputs : List CoinPod) (tbl : List TransferDoc) : List TransferDoc :=
  inputs.foldl (fun acc coin =>
    match lookupCoin coin.owner with
    | none => acc
    | some th =>
      match lookupTransfer th with
      | none => acc
      | some ct => putTransfer (conflictTransferDoc ct now) acc) tbl

/-- `finalizeTransfer`: guard on `PENDING`, submit to the settlement server
(the `submit` oracle), reconcile on `INPUT_SPENT` and rethrow, rethrow other
errors untouched, or record the acknowledgement on success. -/
def finalizeTransfer (submit : Except RequestErr Nat)
    (lookupCoin : Nat → Option Nat) (lookupTransfer : Nat → Option AckTransfer)
    (now : Nat) (d : TransferDoc) (tbl : List TransferDoc) :
    FinalizeOutcome × List TransferDoc :=
  if d.status.kind ≠ "PENDING" then (.invalidState, tbl)
  else
    match submit with
    | .error e =>
      if e.message = "INPUT_SPENT" then
        let tbl1 := reconcileInputs lookupCoin lookupTransfer now d.inputs tbl
        (.serverError e, putTransfer { d with status := .conflicted } tbl1)
      else (.serverError e, tbl)
    | .ok ack => (.ok, putTransfer { d with status := .acknowledged ack } tbl)

/-- The conflicting transfers actually found by the `INPUT_SPENT` loop, in
input order. -/
def foundConflicts (lookupCoin : Nat → Option Nat)
    (lookupTransfer : Nat → Option AckTransfer) (inputs : List CoinPod) :
    List AckTransfer :=
  inputs.filterMap (fun coin => (lookupCoin coin.owner).bind lookupTransfer)

lemma getTransfer_putTransfer_self (t : TransferDoc) (tbl : List TransferDoc) :
    getTransfer (putTransfer t tbl) t.hash = some t := by
  unfold putTransfer getTransfer
  by_cases hany : tbl.any (fun x => decide (x.hash = t.hash))
  · rw [if_pos (by simpa using hany)]
    induction tbl with
    | nil => simp at hany
    | cons x xs ih =>
      by_cases hx : x.hash = t.hash
      · simp [List.find?, hx]
      · have hany' : xs.any (fun x => decide (x.hash = t.hash)) := by
          rcases List.any_eq_true.mp hany with ⟨y, hy, hyh⟩
          rcases List.mem_cons.mp hy with rfl | hy
          · exact absurd (of_decide_eq_true hyh) hx
          · exact List.any_eq_true.mpr ⟨y, hy, hyh⟩
        simpa [List.find?, hx] using ih hany'
  · rw [if_neg (by simpa using hany)]
    induction tbl with
    | nil => simp [List.find?]
    | cons x xs ih =>
      have hx : ¬ x.hash = t.hash := by
        intro hxx
        exact hany (List.any_eq_true.mpr ⟨x, List.mem_cons_self x xs, decide_eq_true hxx⟩)
      have hany' : ¬ xs.any (fun x => decide (x.hash = t.hash)) := by
        intro hc
        rcases List.any_eq_true.mp hc with ⟨y, hy, hyh⟩
        exact hany (List.any_eq_true.mpr ⟨y, List.mem_cons_of_mem x hy, hyh⟩)
      simpa [List.find?, hx] using ih hany'

lemma find?_hash_map_replace {h : Nat} (t : TransferDoc) (tbl : List TransferDoc)
    (hne : h ≠ t.hash) :
    (tbl.map (fun x => if x.hash = t.hash then t else x)).find?
        (fun x => decide (x.hash = h)) =
      tbl.find? (fun x => decide (x.hash = h)) := by
  induction tbl with
  | nil => rfl
  | cons x xs ih =>
    rw [List.map_cons]
    by_cases hx : x.hash = t.hash
    · rw [if_pos hx]
      have h1 : ¬ (t.hash = h) := fun hc => hne hc.symm
      have h2 : ¬ (x.hash = h) := by rw [hx]; exact h1
      rw [List.find?_cons_of_neg _ (by simpa using h1),
        List.find?_cons_of_neg _ (by simpa using h2), ih]
    · rw [if_neg hx]
      by_cases hxh : x.hash = h
      · rw [List.find?_cons_of_pos _ (by simpa using hxh),
          List.find?_cons_of_pos _ (by simpa using hxh)]
      · rw [List.find?_cons_of_neg _ (by simpa using hxh),
          List.find?_cons_of_neg _ (by simpa using hxh), ih]

lemma find?_hash_append_single {h : Nat} (t : TransferDoc) (tbl : List TransferDoc)
    (hne : h ≠ t.hash) :
    (tbl ++ [t]).find? (fun x => decide (x.hash = h)) =
      tbl.find? (fun x => decide (x.hash = h)) := by
  induction tbl with
  | nil =>
    rw [List.nil_append,
      List.find?_cons_of_neg _ (by simpa using (fun hc : t.hash = h => hne hc.symm))]
  | cons x xs ih =>
    rw [List.cons_append]
    by_cases hxh : x.hash = h
    · rw [List.find?_cons_of_pos _ (by simpa using hxh),
        List.find?_cons_of_pos _ (by simpa using hxh)]
    · rw [List.find?_cons_of_neg _ (by simpa using hxh),
        List.find?_cons_of_neg _ (by simpa using hxh), ih]

lemma getTransfer_putTransfer_of_ne {h : Nat} (t : TransferDoc) (tbl : List TransferDoc)
    (hne : h ≠ t.hash) : getTransfer (putTransfer t tbl) h = getTransfer tbl h := by
  unfold putTransfer getTransfer
  by_cases hany : tbl.any (fun x => decide (x.hash = t.hash))
  · rw [if_pos (by simpa using hany)]
    exact find?_hash_map_replace t tbl hne
  · rw [if_neg (by simpa using hany)]
    exact find?_hash_append_single t tbl hne

lemma map_hash_putTransfer (t : TransferDoc) (tbl : List TransferDoc) :
    (putTransfer t tbl).map (fun x => x.hash) =
      if tbl.any (fun x => x.hash = t.hash) then tbl.map (fun x => x.hash)
      else tbl.map (fun x => x.hash) ++ [t.hash] := by
  unfold putTransfer
  by_cases hany : tbl.any (fun x => decide (x.hash = t.hash))
  · rw [if_pos (by simpa using hany), if_pos (by simpa using hany), List.map_map]
    apply List.map_congr_left
    intro x _
    by_cases hx : x.hash = t.hash
    · simp [hx]
    · simp [hx]
  · rw [if_neg (by simpa using hany), if_neg (by simpa using hany)]
    simp

lemma noDupKeys_putTransfer {tbl : List TransferDoc} (t : TransferDoc)
    (hnd : NoDupKeys tbl) : NoDupKeys (putTransfer t tbl) := by
  unfold NoDupKeys
  rw [map_hash_putTransfer]
  by_cases hany : tbl.any (fun x => decide (x.hash = t.hash))
  · rw [if_pos (by simpa using hany)]; exact hnd
  · rw [if_neg (by simpa using hany)]
    rw [List.nodup_append]
    refine ⟨hnd, List.nodup_singleton _, ?_⟩
    intro a ha hb
    have hat : a = t.hash := by simpa using hb
    obtain ⟨x, hx, hxa⟩ := List.mem_map.mp ha
    exact hany (List.any_eq_true.mpr ⟨x, hx, decide_eq_true (by rw [hxa, hat])⟩)

lemma reconcileInputs_eq_foldl (lookupCoin : Nat → Option Nat)
    (lookupTransfer : Nat → Option AckTransfer) (now : Nat)
    (inputs : List CoinPod) (tbl : List TransferDoc) :
    reconcileInputs lookupCoin lookupTransfer now inputs tbl =
      (foundConflicts lookupCoin lookupTransfer inputs).foldl
        (fun acc ct => putTransfer (conflictTransferDoc ct now) acc) tbl := by
  induction inputs generalizing tbl with
  | nil => rfl
  | cons coin rest ih =>
    cases hlc : lookupCoin coin.owner with
    | none =>
      have h1 : reconcileInputs lookupCoin lookupTransfer now (coin :: rest) tbl =
          reconcileInputs lookupCoin lookupTransfer now rest tbl := by
        simp only [reconcileInputs, List.foldl_cons, hlc]
      have h2 : foundConflicts lookupCoin lookupTransfer (coin :: rest) =
          foundConflicts lookupCoin lookupTransfer rest := by
        simp [foundConflicts, List.filterMap_cons, hlc]
      rw [h1, h2, ih]
    | some th =>
      cases hlt : lookupTransfer th with
      | none =>
        have h1 : reconcileInputs lookupCoin lookupTransfer now (coin :: rest) tbl =
            reconcileInputs lookupCoin lookupTransfer now rest tbl := by
          simp only [reconcileInputs, List.foldl_cons, hlc, hlt]
        have h2 : foundConflicts lookupCoin lookupTransfer (coin :: rest) =
            foundConflicts lookupCoin lookupTransfer rest := by
          simp [foundConflicts, List.filterMap_cons, hlc, hlt]
        rw [h1, h2, ih]
      | some ct =>
        have h1 : reconcileInputs lookupCoin lookupTransfer now (coin :: rest) tbl =
            reconcileInputs lookupCoin lookupTransfer now rest
              (putTransfer (conflictTransferDoc ct now) tbl) := by
          simp only [reconcileInputs, List.foldl_cons, hlc, hlt]
        have h2 : foundConflicts lookupCoin lookupTransfer (coin :: rest) =
            ct :: foundConflicts lookupCoin lookupTransfer rest := by
          simp [foundConflicts, List.filterMap_cons, hlc, hlt]
        rw [h1, h2, List.foldl_cons, ih]

lemma getTransfer_foldlPut_skip {h : Nat} (now : Nat) (cts : List AckTransfer)
    (tbl : List TransferDoc) (hfree : ∀ ct ∈ cts, ct.hash ≠ h) :
    getTransfer (cts.foldl (fun acc ct => putTransfer (conflictTransferDoc ct now) acc) tbl) h =
      getTransfer tbl h := by
  induction cts generalizing tbl with
  | nil => rfl
  | cons c cs ih =>
    rw [List.foldl_cons, ih _ (fun ct hct => hfree ct (List.mem_cons_of_mem c hct))]
    exact getTransfer_putTransfer_of_ne _ _
      (fun hc => hfree c (List.mem_cons_self c cs) hc.symm)

lemma getTransfer_foldlPut (now : Nat) (cts : List AckTransfer)
    (tbl : List TransferDoc) (hp : cts.Pairwise (fun a b => a.hash ≠ b.hash))
    (ct : AckTransfer) (hct : ct ∈ cts) :
    getTransfer (cts.foldl (fun acc c => putTransfer (conflictTransferDoc c now) acc) tbl)
        ct.hash = some (conflictTransferDoc ct now) := by
  induction cts generalizing tbl with
  | nil => cases hct
  | cons c cs ih =>
    rcases List.mem_cons.mp hct with rfl | hct
    · rw [List.foldl_cons,
        getTransfer_foldlPut_skip now cs _
          (fun u hu => Ne.symm ((List.pairwise_cons.mp hp).1 u hu))]
      exact getTransfer_putTransfer_self _ _
    · exact ih _ (List.pairwise_cons.mp hp).2 hct

lemma noDupKeys_foldlPut (now : Nat) (cts : List AckTransfer)
    {tbl : List TransferDoc} (hnd : NoDupKeys tbl) :
    NoDupKeys (cts.foldl (fun acc ct => putTransfer (conflictTransferDoc ct now) acc) tbl) := by
  induction cts generalizing tbl with
  | nil => exact hnd
  | cons c cs ih =>
    rw [List.foldl_cons]
    exact ih (noDupKeys_putTransfer _ hnd)

lemma noDupKeys_reconcileInputs (lookupCoin : Nat → Option Nat)
    (lookupTransfer : Nat → Option AckTransfer) (now : Nat)
    (inputs : List CoinPod) {tbl : List TransferDoc} (hnd : NoDupKeys tbl) :
    NoDupKeys (reconcileInputs lookupCoin lookupTransfer now inputs tbl) := by
  rw [reconcileInputs_eq_foldl]
  exact noDupKeys_foldlPut now _ hnd

/-- C5: finalizing or discarding a transfer whose status kind is not
`PENDING` fails with an error and leaves the stored transfers unchanged;
discarding a `PENDING` transfer succeeds and stores it with status
`CONFLICTED`. -/
theorem C5_nonpending_guard (d : TransferDoc) (tbl : List TransferDoc)
    (submit : Except RequestErr Nat) (lookupCoin : Nat → Option Nat)
    (lookupTransfer : Nat → Option AckTransfer) (now : Nat) :
    (d.status.kind ≠ "PENDING" →
      discardTransfer d tbl = .error "transfer must be pending"
      ∧ finalizeTransfer submit lookupCoin lookupTransfer now d tbl = (.invalidState, tbl))
    ∧ (d.status = .pending →
      discardTransfer d tbl = .ok (putTransfer { d with status := .conflicted } tbl)
      ∧ getTransfer (putTransfer { d with status := .conflicted } tbl) d.hash
          = some { d with status := .conflicted }) := by
  constructor
  · intro hne
    constructor
    · unfold discardTransfer
      rw [if_pos hne]
    · unfold finalizeTransfer
      rw [if_pos hne]
  · intro hpend
    have hk : ¬ (d.status.kind ≠ "PENDING") := by rw [hpend]; simp [TStatus.kind]
    constructor
    · unfold discardTransfer
      rw [if_neg hk]
    · exact getTransfer_putTransfer_self { d with status := .conflicted } tbl

/-- Witness for C5: an `ACKNOWLEDGED` transfer is refused by both
`discardTransfer` and `finalizeTransfer` with the table untouched, and a
`PENDING` transfer is discarded to `CONFLICTED`. -/
theorem C5_nonpending_guard_witness :
    discardTransfer ⟨7, [], [], [], none, .acknowledged 3, 0⟩ []
        = .error "transfer must be pending"
    ∧ finalizeTransfer (.ok 9) (fun _ => none) (fun _ => none) 0
        ⟨7, [], [], [], none, .acknowledged 3, 0⟩ [] = (.invalidState, [])
    ∧ discardTransfer (⟨7, [], [], [], none, .pending, 0⟩ : TransferDoc) []
        = .ok [⟨7, [], [], [], none, .conflicted, 0⟩]
    ∧ getTransfer [(⟨7, [], [], [], none, .conflicted, 0⟩ : TransferDoc)] 7
        = some ⟨7, [], [], [], none, .conflicted, 0⟩ := by
  refine ⟨?_, ?_, ?_, ?_⟩
  · exact ((C5_nonpending_guard ⟨7, [], [], [], none, .acknowledged 3, 0⟩ []
      (.ok 9) (fun _ => none) (fun _ => none) 0).1 (by decide)).1
  · exact ((C5_nonpending_guard ⟨7, [], [], [], none, .acknowledged 3, 0⟩ []
      (.ok 9) (fun _ => none) (fun _ => none) 0).1 (by decide)).2
  · exact ((C5_nonpending_guard ⟨7, [], [], [], none, .pending, 0⟩ []
      (.ok 9) (fun _ => none) (fun _ => none) 0).2 rfl).1
  · exact ((C5_nonpending_guard ⟨7, [], [], [], none, .pending, 0⟩ []
      (.ok 9) (fun _ => none) (fun _ => none) 0).2 rfl).2

/-- C4: when submitting a `PENDING` transfer is rejected with `INPUT_SPENT`,
`finalizeTransfer` stores every conflicting transfer it finds (looked up per
input coin) with status `ACKNOWLEDGED`, keyed by transfer hash so repeated
reconciliation produces no duplicate rows, sets the local transfer's status
to `CONFLICTED`, and surfaces the original error. -/
theorem C4_input_spent_reconciliation (lookupCoin : Nat → Option Nat)
    (lookupTransfer : Nat → Option AckTransfer) (now : Nat)
    (d : TransferDoc) (tbl : List TransferDoc) (e : RequestErr)
    (hpend : d.status = .pending) (he : e.message = "INPUT_SPENT")
    (hp : (foundConflicts lookupCoin lookupTransfer d.inputs).Pairwise
      (fun a b => a.hash ≠ b.hash))
    (hd : ∀ ct ∈ foundConflicts lookupCoin lookupTransfer d.inputs, ct.hash ≠ d.hash) :
    (finalizeTransfer (.error e) lookupCoin lookupTransfer now d tbl).1 = .serverError e
    ∧ getTransfer (finalizeTransfer (.error e) lookupCoin lookupTransfer now d tbl).2 d.hash
        = some { d with status := .conflicted }
    ∧ (∀ ct ∈ foundConflicts lookupCoin lookupTransfer d.inputs,
        getTransfer (finalizeTransfer (.error e) lookupCoin lookupTransfer now d tbl).2 ct.hash
          = some (conflictTransferDoc ct now))
    ∧ (NoDupKeys tbl →
        NoDupKeys (finalizeTransfer (.error e) lookupCoin lookupTransfer now d tbl).2)
    ∧ (NoDupKeys tbl →
        NoDupKeys (reconcileInputs lookupCoin lookupTransfer now d.inputs
          (reconcileInputs lookupCoin lookupTransfer now d.inputs tbl))) := by
  have hk : ¬ (d.status.kind ≠ "PENDING") := by rw [hpend]; simp [TStatus.kind]
  have hres : finalizeTransfer (.error e) lookupCoin lookupTransfer now d tbl =
      (.serverError e, putTransfer { d with status := .conflicted }
        (reconcileInputs lookupCoin lookupTransfer now d.inputs tbl)) := by
    unfold finalizeTransfer
    rw [if_neg hk]
    dsimp only
    rw [if_pos he]
  rw [hres]
  refine ⟨rfl, ?_, ?_, ?_, ?_⟩
  · exact getTransfer_putTransfer_self { d with status := .conflicted } _
  · intro ct hct
    have h1 : getTransfer (putTransfer { d with status := .conflicted }
        (reconcileInputs lookupCoin lookupTransfer now d.inputs tbl)) ct.hash =
        getTransfer (reconcileInputs lookupCoin lookupTransfer now d.inputs tbl) ct.hash :=
      getTransfer_putTransfer_of_ne _ _ (hd ct hct)
    rw [h1, reconcileInputs_eq_foldl]
    exact getTransfer_foldlPut now _ tbl hp ct hct
  · intro hnd
    exact noDupKeys_putTransfer _
      (noDupKeys_reconcileInputs lookupCoin lookupTransfer now d.inputs hnd)
  · intro hnd
    exact noDupKeys_reconcileInputs lookupCoin lookupTransfer now d.inputs
      (noDupKeys_reconcileInputs lookupCoin lookupTransfer now d.inputs hnd)

/-- Witness for C4: a pending transfer with one input whose owner the server
reports as spent by transfer 77; reconciliation stores transfer 77 as
acknowledged, conflicts the local transfer 50, and rethrows `INPUT_SPENT`. -/
theorem C4_input_spent_reconciliation_witness :
    (finalizeTransfer (.error ⟨"INPUT_SPENT", 400⟩)
        (fun o => if o = 11 then some 77 else none)
        (fun th => if th = 77 then some ⟨77, [⟨11, 1⟩], 5, [], none⟩ else none) 1
        ⟨50, [⟨11, 1⟩], [1], [], none, .pending, 0⟩
        [⟨50, [⟨11, 1⟩], [1], [], none, .pending, 0⟩]).1
      = .serverError ⟨"INPUT_SPENT", 400⟩
    ∧ getTransfer (finalizeTransfer (.error ⟨"INPUT_SPENT", 400⟩)
        (fun o => if o = 11 then some 77 else none)
        (fun th => if th = 77 then some ⟨77, [⟨11, 1⟩], 5, [], none⟩ else none) 1
        ⟨50, [⟨11, 1⟩], [1], [], none, .pending, 0⟩
        [⟨50, [⟨11, 1⟩], [1], [], none, .pending, 0⟩]).2 50
      = some ⟨50, [⟨11, 1⟩], [1], [], none, .conflicted, 0⟩
    ∧ getTransfer (finalizeTransfer (.error ⟨"INPUT_SPENT", 400⟩)
        (fun o => if o = 11 then some 77 else none)
        (fun th => if th = 77 then some ⟨77, [⟨11, 1⟩], 5, [], none⟩ else none) 1
        ⟨50, [⟨11, 1⟩], [1], [], none, .pending, 0⟩
        [⟨50, [⟨11, 1⟩], [1], [], none, .pending, 0⟩]).2 77
      = some (conflictTransferDoc ⟨77, [⟨11, 1⟩], 5, [], none⟩ 1) := by
  refine ⟨?_, ?_, ?_⟩
  · exact (C4_input_spent_reconciliation
      (fun o => if o = 11 then some 77 else none)
      (fun th => if th = 77 then some ⟨77, [⟨11, 1⟩], 5, [], none⟩ else none) 1
      ⟨50, [⟨11, 1⟩], [1], [], none, .pending, 0⟩
      [⟨50, [⟨11, 1⟩], [1], [], none, .pending, 0⟩] ⟨"INPUT_SPENT", 400⟩
      rfl rfl (by decide) (by decide)).1
  · exact (C4_input_spent_reconciliation
      (fun o => if o = 11 then some 77 else none)
      (fun th => if th = 77 then some ⟨77, [⟨11, 1⟩], 5, [], none⟩ else none) 1
      ⟨50, [⟨11, 1⟩], [1], [], none, .pending, 0⟩
      [⟨50, [⟨11, 1⟩], [1], [], none, .pending, 0⟩] ⟨"INPUT_SPENT", 400⟩
      rfl rfl (by decide) (by decide)).2.1
  · exact (C4_input_spent_reconciliation
      (fun o => if o = 11 then some 77 else none)
      (fun th => if th = 77 then some ⟨77, [⟨11, 1⟩], 5, [], none⟩ else none) 1
      ⟨50, [⟨11, 1⟩], [1], [], none, .pending, 0⟩
      [⟨50, [⟨11, 1⟩], [1], [], none, .pending, 0⟩] ⟨"INPUT_SPENT", 400⟩
      rfl rfl (by decide) (by decide)).2.2.1 ⟨77, [⟨11, 1⟩], 5, [], none⟩ (by decide)

/-! ## Claim orchestration: claimBounty / claimHookin (lines 214-255) and
processClaimResponse (lines 168-212) -/

/-- One coin request inside a claim request (`claimRequest.coins[i]`): the
blinding nonce and the magnitude. -/
structure CoinClaim where
  blindingNonce : Nat
  magnitude : Nat
deriving DecidableEq, Repr

/-- The acknowledged claim response stored in the claims table, which Dexie
keys by `claimRequest.claim` — the hash of the thing claimed. -/
structure ClaimResponse where
  claim : Nat
  coins : List CoinClaim
deriving DecidableEq, Repr

/-- A coin row as materialized by `processClaimResponse`, identified here by
(claim hash, blinding nonce, magnitude): an injective stand-in for the coin
content hash, since the owner is derived from the claim hash and nonce. -/
structure ClaimedCoin where
  claimHash : Nat
  blindingNonce : Nat
  magnitude : Nat
deriving DecidableEq, Repr

/-- The two tables touched by the claim protocol's one atomic transaction. -/
structure ClaimState where
  claims : List ClaimResponse
  coins : List ClaimedCoin
deriving DecidableEq, Repr

/-- Dexie `claims.put`, keyed by `claimRequest.claim`. -/
def putClaim (r : ClaimResponse) (tbl : List ClaimResponse) : List ClaimResponse :=
  if tbl.any (fun x => x.claim = r.claim) then
    tbl.map (fun x => if x.claim = r.claim then r else x)
  else tbl ++ [r]

/-- Dexie `coins.put`, keyed by the coin hash (here the whole row stands for
its own content hash). -/
def putClaimedCoin (c : ClaimedCoin) (tbl : List ClaimedCoin) : List ClaimedCoin :=
  if tbl.any (fun x => x = c) then tbl else tbl ++ [c]

/-- `processClaimResponse`: in one `rw` transaction, put one coin per coin
claim of the response and put the single claim record. -/
def processClaimResponse (resp : ClaimResponse) (st : ClaimState) : ClaimState :=
  { claims := putClaim resp st.claims
    coins := resp.coins.foldl
      (fun acc cc => putClaimedCoin ⟨resp.claim, cc.blindingNonce, cc.magnitude⟩ acc)
      st.coins }

/-- Modelled from the spec: `makeClaim` (src/wallet/requests/make-claim.ts is
not among the given sources) performs the blind-signature round trip for the
target. Per the spec the Claim record is "keyed by the claim hash = hash of
the thing claimed", so the response's `claimRequest.claim` field equals the
target's hash; the returned per-coin claims are left to the `coinsOf`
oracle. -/
def makeClaim (coinsOf : Nat → List CoinClaim) (targetHash : Nat) : ClaimResponse :=
  { claim := targetHash, coins := coinsOf targetHash }

/-- `claimBountyWithAddress`: if a claim record for the bounty hash exists,
return without a network call (flag `false`); otherwise run `makeClaim` and
persist the response (flag `true` records the network round trip). -/
def claimBountyWithAddress (coinsOf : Nat → List CoinClaim) (bountyHash : Nat)
    (st : ClaimState) : ClaimState × Bool :=
  if st.claims.any (fun c => c.claim = bountyHash) then (st, false)
  else (processClaimResponse (makeClaim coinsOf bountyHash) st, true)

/-- `claimHookin`: the same not-yet-claimed guard and persistence, keyed by
the hookin's hash. -/
def claimHookin (coinsOf : Nat → List CoinClaim) (hookinHash : Nat)
    (st : ClaimState) : ClaimState × Bool :=
  if st.claims.any (fun c => c.claim = hookinHash) then (st, false)
  else (processClaimResponse (makeClaim coinsOf hookinHash) st, true)

/-- Number of claim records stored for a given target hash. -/
def countClaims (tbl : List ClaimResponse) (h : Nat) : Nat :=
  (tbl.filter (fun c => decide (c.claim = h))).length

lemma mem_putClaim_self (r : ClaimResponse) (tbl : List ClaimResponse) :
    r ∈ putClaim r tbl := by
  unfold putClaim
  by_cases hany : tbl.any (fun x => decide (x.claim = r.claim))
  · rw [if_pos (by simpa using hany)]
    rcases List.any_eq_true.mp hany with ⟨x, hx, hxc⟩
    refine List.mem_map.mpr ⟨x, hx, ?_⟩
    rw [if_pos (of_decide_eq_true hxc)]
  · rw [if_neg (by simpa using hany)]
    simp

lemma countClaims_eq_zero {tbl : List ClaimResponse} {h : Nat}
    (hz : countClaims tbl h = 0) : ∀ c ∈ tbl, c.claim ≠ h := by
  intro c hc hch
  have : tbl.filter (fun c => decide (c.claim = h)) = [] :=
    List.length_eq_zero.mp hz
  have hmem : c ∈ tbl.filter (fun c => decide (c.claim = h)) :=
    List.mem_filter.mpr ⟨hc, decide_eq_true hch⟩
  rw [this] at hmem
  cases hmem

/-- C2: claiming a bounty or hookin whose hash already has a Claim record is
a no-op — no network round trip, claims and coins tables unchanged — so two
successive calls on the same unclaimed target hash perform one round trip
and leave exactly one Claim record. -/
theorem C2_claim_idempotent (coinsOf : Nat → List CoinClaim) (h : Nat) (st : ClaimState)
    (hnone : countClaims st.claims h = 0) :
    (claimBountyWithAddress coinsOf h (claimBountyWithAddress coinsOf h st).1
        = ((claimBountyWithAddress coinsOf h st).1, false)
      ∧ countClaims (claimBountyWithAddress coinsOf h st).1.claims h = 1)
    ∧ (claimHookin coinsOf h (claimHookin coinsOf h st).1
        = ((claimHookin coinsOf h st).1, false)
      ∧ countClaims (claimHookin coinsOf h st).1.claims h = 1) := by
  have hno := countClaims_eq_zero hnone
  have hguard : ¬ (st.claims.any (fun c => decide (c.claim = h)) = true) := by
    intro hc
    rcases List.any_eq_true.mp hc with ⟨c, hcmem, hcc⟩
    exact hno c hcmem (of_decide_eq_true hcc)
  have hfirst : claimBountyWithAddress coinsOf h st =
      (processClaimResponse (makeClaim coinsOf h) st, true) := by
    unfold claimBountyWithAddress
    rw [if_neg hguard]
  have hput : putClaim (makeClaim coinsOf h) st.claims
      = st.claims ++ [makeClaim coinsOf h] := by
    unfold putClaim
    dsimp only [makeClaim]
    rw [if_neg hguard]
  have hany1 : (processClaimResponse (makeClaim coinsOf h) st).claims.any
      (fun c => decide (c.claim = h)) = true :=
    List.any_eq_true.mpr
      ⟨makeClaim coinsOf h, mem_putClaim_self _ _, decide_eq_true rfl⟩
  have hbounty : claimBountyWithAddress coinsOf h (claimBountyWithAddress coinsOf h st).1
        = ((claimBountyWithAddress coinsOf h st).1, false)
      ∧ countClaims (claimBountyWithAddress coinsOf h st).1.claims h = 1 := by
    rw [hfirst]
    constructor
    · unfold claimBountyWithAddress
      rw [if_pos hany1]
    · show countClaims (putClaim (makeClaim coinsOf h) st.claims) h = 1
      rw [hput]
      unfold countClaims
      rw [List.filter_append]
      rw [List.length_eq_zero.mp hnone]
      simp [makeClaim]
  refine ⟨hbounty, ?_⟩
  rw [show claimHookin = claimBountyWithAddress from rfl]
  exact hbounty

/-- Witness for C2 on an initially empty store: the second bounty claim and
the second hookin claim for hash 42 are no-ops and one claim record
remains. -/
theorem C2_claim_idempotent_witness :
    (claimBountyWithAddress (fun _ => [⟨5, 0⟩]) 42
          (claimBountyWithAddress (fun _ => [⟨5, 0⟩]) 42 ⟨[], []⟩).1
        = ((claimBountyWithAddress (fun _ => [⟨5, 0⟩]) 42 ⟨[], []⟩).1, false)
      ∧ countClaims (claimBountyWithAddress (fun _ => [⟨5, 0⟩]) 42 ⟨[], []⟩).1.claims 42 = 1)
    ∧ (claimHookin (fun _ => [⟨5, 0⟩]) 42
          (claimHookin (fun _ => [⟨5, 0⟩]) 42 ⟨[], []⟩).1
        = ((claimHookin (fun _ => [⟨5, 0⟩]) 42 ⟨[], []⟩).1, false)
      ∧ countClaims (claimHookin (fun _ => [⟨5, 0⟩]) 42 ⟨[], []⟩).1.claims 42 = 1) :=
  C2_claim_idempotent (fun _ => [⟨5, 0⟩]) 42 ⟨[], []⟩ rfl

/-! ## Key derivation (lines 717-786) -/

/-- A domain-separated digest `hi.Hash.fromMessage(label, ...byteStrings)`,
modelled as a free constructor: collision-free and injective in the label
and the arguments, per the crypto library's contract. -/
structure HashMsg where
  label : String
  args : List Nat
deriving DecidableEq, Repr

/-- `hi.PrivateKey.fromBytes` applied to a digest. -/
structure PrivKey where
  bytes : HashMsg
deriving DecidableEq, Repr

/-- `seedToBitcoinAddressGenerator(seed)` (line 773). -/
def seedToBitcoinAddressGenerator (seed : Nat) : PrivKey :=
  ⟨⟨"bitcoinAddressGenerator", [seed]⟩⟩

/-- `seedToDirectAddressGenerator(seed)` (line 778). -/
def seedToDirectAddressGenerator (seed : Nat) : PrivKey :=
  ⟨⟨"directAddressGenerator", [seed]⟩⟩

/-- `seedToInternalAddressGenerator(seed)` (line 783). -/
def seedToInternalAddressGenerator (seed : Nat) : PrivKey :=
  ⟨⟨"internalAddressGenerator", [seed]⟩⟩

/-- `generator.derive(n)`: the crypto library's deterministic sub-key
derivation, modelled as a free pairing of generator and index. -/
structure DerivedKey where
  generator : PrivKey
  index : Nat
deriving DecidableEq, Repr

def derivePriv (g : PrivKey) (n : Nat) : DerivedKey := ⟨g, n⟩

/-- The state a derivation call can see: the optional in-memory seed and
the persisted tables. -/
structure WalletState where
  seed : Option Nat
  coins : List CoinDoc
  transfers : List TransferDoc
  claims : List ClaimResponse
deriving DecidableEq, Repr

/-- `deriveClaimant(n, isInternal)` (lines 743-751): locked-wallet guard,
then derive from the generator selected by `isInternal` — the source picks
`seedToDirectAddressGenerator` when `isInternal` is true and
`seedToInternalAddressGenerator` when it is false. -/
def deriveClaimant (st : WalletState) (n : Nat) (isInternal : Bool) :
    Except String DerivedKey :=
  match st.seed with
  | none => .error "wallet is locked"
  | some seed =>
    .ok (derivePriv
      (if isInternal then seedToDirectAddressGenerator seed
       else seedToInternalAddressGenerator seed) n)

/-- `deriveOwner(claimHash, blindingNonce)` (lines 753-761). -/
def deriveOwner (st : WalletState) (claimHash blindingNonce : Nat) :
    Except String PrivKey :=
  match st.seed with
  | none => .error "wallet is locked"
  | some seed => .ok ⟨⟨"HIChain.deriveOwner", [seed, claimHash, blindingNonce]⟩⟩

/-- `deriveBlindingSecret(claimHash, blindingNonce)` (lines 763-770). -/
def deriveBlindingSecret (st : WalletState) (claimHash blindingNonce : Nat) :
    Except String HashMsg :=
  match st.seed with
  | none => .error "wallet is locked"
  | some seed => .ok ⟨"HIChain.deriveBlindingSecret", [seed, claimHash, blindingNonce]⟩

/-- C7: for a fixed loaded seed, `deriveOwner` and `deriveBlindingSecret`
are deterministic functions of (claimHash, blindingNonce) that read no
persisted state besides the in-memory seed: any two wallet states agreeing
on the seed — whatever their tables hold — give identical outputs. -/
theorem C7_derivation_deterministic (s1 s2 : WalletState)
    (claimHash blindingNonce : Nat) (hseed : s1.seed = s2.seed) :
    deriveOwner s1 claimHash blindingNonce = deriveOwner s2 claimHash blindingNonce
    ∧ deriveBlindingSecret s1 claimHash blindingNonce
        = deriveBlindingSecret s2 claimHash blindingNonce := by
  unfold deriveOwner deriveBlindingSecret
  rw [hseed]
  exact ⟨rfl, rfl⟩

/-- Witness for C7: two states with seed 9 but different table contents
derive the same owner key and blinding secret for (10, 20). -/
theorem C7_derivation_deterministic_witness :
    deriveOwner ⟨some 9, [⟨1, 2, 3, 4⟩], [], []⟩ 10 20
        = deriveOwner ⟨some 9, [], [⟨5, [], [6], [], none, .pending, 0⟩], []⟩ 10 20
    ∧ deriveBlindingSecret ⟨some 9, [⟨1, 2, 3, 4⟩], [], []⟩ 10 20
        = deriveBlindingSecret ⟨some 9, [], [⟨5, [], [6], [], none, .pending, 0⟩], []⟩ 10 20 :=
  C7_derivation_deterministic ⟨some 9, [⟨1, 2, 3, 4⟩], [], []⟩
    ⟨some 9, [], [⟨5, [], [6], [], none, .pending, 0⟩], []⟩ 10 20 rfl

/-- C10: `deriveClaimant(n, true)` derives from the sub-generator hashed
with the label `directAddressGenerator`, and `deriveClaimant(n, false)` from
the one labelled `internalAddressGenerator`; the two lineages use distinct
generators, but each flag selects the generator whose label names the
opposite lineage. -/
theorem C10_claimant_generator_labels (st : WalletState) (seed n : Nat)
    (hseed : st.seed = some seed) :
    deriveClaimant st n true
        = .ok (derivePriv ⟨⟨"directAddressGenerator", [seed]⟩⟩ n)
    ∧ deriveClaimant st n false
        = .ok (derivePriv ⟨⟨"internalAddressGenerator", [seed]⟩⟩ n)
    ∧ seedToDirectAddressGenerator seed ≠ seedToInternalAddressGenerator seed := by
  unfold deriveClaimant
  rw [hseed]
  refine ⟨rfl, rfl, ?_⟩
  intro hc
  have h1 : "directAddressGenerator" = "internalAddressGenerator" :=
    congrArg (fun k => k.bytes.label) hc
  exact absurd h1 (by decide)

/-- Witness for C10 at seed 3 and index 5. -/
theorem C10_claimant_generator_labels_witness :
    deriveClaimant ⟨some 3, [], [], []⟩ 5 true
        = .ok (derivePriv ⟨⟨"directAddressGenerator", [3]⟩⟩ 5)
    ∧ deriveClaimant ⟨some 3, [], [], []⟩ 5 false
        = .ok (derivePriv ⟨⟨"internalAddressGenerator", [3]⟩⟩ 5)
    ∧ seedToDirectAddressGenerator 3 ≠ seedToInternalAddressGenerator 3 :=
  C10_claimant_generator_labels ⟨some 3, [], [], []⟩ 3 5 rfl

/-! ## Transfer construction: sendDirect (lines 582-647) and
sendToBitcoinAddress (lines 649-715) -/

/-- The commitment hash `hi.Transfer.hashOf(inputHashes, bountyHashes,
hookoutHash)`, modelled as a free (injective) constructor over its ordered
arguments, per the crypto library's content-hashing contract. -/
structure THash where
  inputHashes : List Nat
  bountyHashes : List Nat
  hookoutHash : Option Nat
deriving DecidableEq, Repr

/-- `hi.Transfer.sort`: canonical ordering of inputs or outputs by the fixed
hash-based comparison (hashes here are naturals ordered by `≤`). -/
def transferSort (l : List Nat) : List Nat := l.insertionSort (fun a b => a ≤ b)

/-- The transfer row fields relevant to the commitment hash, as stored by
`sendDirect` / `sendToBitcoinAddress`. -/
structure BuiltTransfer where
  hash : THash
  inputHashes : List Nat
  bountyHashes : List Nat
  hookoutHash : Option Nat
deriving DecidableEq, Repr

/-- The hash-relevant core of `sendDirect`: the bounty list is the primary
bounty plus the optional change bounty, sorted (line 608); the inputs are
the selected coins, sorted (line 611); the commitment hash is computed over
those ordered hashes with no hookout (line 613) and stored on the row. -/
def sendDirectBuild (inputCoinHashes : List Nat) (primaryBountyHash : Nat)
    (changeBountyHash : Option Nat) : BuiltTransfer :=
  { hash := ⟨transferSort inputCoinHashes,
      transferSort (primaryBountyHash :: changeBountyHash.toList), none⟩
    inputHashes := transferSort inputCoinHashes
    bountyHashes := transferSort (primaryBountyHash :: changeBountyHash.toList)
    hookoutHash := none }

/-- The hash-relevant core of `sendToBitcoinAddress`: the bounty list is the
optional change bounty only, the inputs are sorted (line 675), and the
commitment hash includes the hookout hash (line 677). -/
def sendToBitcoinAddressBuild (inputCoinHashes : List Nat) (hookoutHash : Nat)
    (changeBountyHash : Option Nat) : BuiltTransfer :=
  { hash := ⟨transferSort inputCoinHashes, changeBountyHash.toList, some hookoutHash⟩
    inputHashes := transferSort inputCoinHashes
    bountyHashes := changeBountyHash.toList
    hookoutHash := some hookoutHash }

/-- Recompute the commitment hash from the stored row's ordered input coin
hashes, ordered output bounty hashes and optional hookout hash. -/
def recomputeHash (d : BuiltTransfer) : THash :=
  ⟨d.inputHashes, d.bountyHashes, d.hookoutHash⟩

lemma transferSort_perm_invariant {l l' : List Nat} (hp : l.Perm l') :
    transferSort l = transferSort l' := by
  unfold transferSort
  exact List.eq_of_perm_of_sorted
    ((List.perm_insertionSort _ l).trans (hp.trans (List.perm_insertionSort _ l').symm))
    (List.sorted_insertionSort _ l) (List.sorted_insertionSort _ l')

/-- C6: for every transfer built by `sendDirect` or `sendToBitcoinAddress`,
recomputing the commitment hash from the stored row's ordered inputs,
ordered bounty outputs and optional hookout hash yields the hash stored at
creation time, and the stored row does not depend on the order in which the
inputs (or the primary/change outputs) were constructed. -/
theorem C6_commitment_hash_roundtrip (inputCoinHashes altOrder : List Nat)
    (primaryBountyHash hookoutHash : Nat) (changeBountyHash : Option Nat)
    (hperm : inputCoinHashes.Perm altOrder) :
    recomputeHash (sendDirectBuild inputCoinHashes primaryBountyHash changeBountyHash)
        = (sendDirectBuild inputCoinHashes primaryBountyHash changeBountyHash).hash
    ∧ recomputeHash (sendToBitcoinAddressBuild inputCoinHashes hookoutHash changeBountyHash)
        = (sendToBitcoinAddressBuild inputCoinHashes hookoutHash changeBountyHash).hash
    ∧ sendDirectBuild inputCoinHashes primaryBountyHash changeBountyHash
        = sendDirectBuild altOrder primaryBountyHash changeBountyHash
    ∧ sendToBitcoinAddressBuild inputCoinHashes hookoutHash changeBountyHash
        = sendToBitcoinAddressBuild altOrder hookoutHash changeBountyHash
    ∧ (∀ c : Nat, transferSort [primaryBountyHash, c] = transferSort [c, primaryBountyHash]) := by
  refine ⟨rfl, rfl, ?_, ?_, ?_⟩
  · unfold sendDirectBuild
    rw [transferSort_perm_invariant hperm]
  · unfold sendToBitcoinAddressBuild
    rw [transferSort_perm_invariant hperm]
  · intro c
    exact transferSort_perm_invariant (List.Perm.swap c primaryBountyHash [])

/-- Witness for C6: inputs [3, 1] against the permuted order [1, 3], primary
bounty 5, change bounty 2, hookout 9. -/
theorem C6_commitment_hash_roundtrip_witness :
    recomputeHash (sendDirectBuild [3, 1] 5 (some 2))
        = (sendDirectBuild [3, 1] 5 (some 2)).hash
    ∧ recomputeHash (sendToBitcoinAddressBuild [3, 1] 9 (some 2))
        = (sendToBitcoinAddressBuild [3, 1] 9 (some 2)).hash
    ∧ sendDirectBuild [3, 1] 5 (some 2) = sendDirectBuild [1, 3] 5 (some 2)
    ∧ sendToBitcoinAddressBuild [3, 1] 9 (some 2)
        = sendToBitcoinAddressBuild [1, 3] 9 (some 2)
    ∧ (∀ c : Nat, transferSort [5, c] = transferSort [c, 5]) :=
  C6_commitment_hash_roundtrip [3, 1] [1, 3] 5 9 (some 2)
    (List.Perm.swap 1 3 [])

/-! ## Magnitude decomposition: the amounts passed to hi.amountToMagnitudes
by claimBounty (line 230) and claimHookin (line 250) -/

/-- `hi.amountToMagnitudes(amount)`: the canonical power-of-two
decomposition of the amount, one magnitude per set bit (spec section 4.3,
step 2: "one coin request per magnitude in its canonical power-of-two
decomposition"). -/
def amountToMagnitudes (amount : Nat) : List Nat :=
  if h : amount = 0 then []
  else if amount % 2 = 1 then
    0 :: (amountToMagnitudes (amount / 2)).map (fun m => m + 1)
  else (amountToMagnitudes (amount / 2)).map (fun m => m + 1)
termination_by amount
decreasing_by
  all_goals exact Nat.div_lt_self (Nat.pos_of_ne_zero h) (by norm_num)

/-- Total value of a list of magnitudes: each magnitude m is a coin worth
2 ^ m. -/
def magnitudesSum (l : List Nat) : Nat := (l.map (fun m => 2 ^ m)).sum

/-- The magnitudes requested by `claimBounty` / `claimBountyWithAddress`:
the decomposition of the full bounty amount (line 230). -/
def claimBountyMagnitudes (amount : Nat) : List Nat := amountToMagnitudes amount

/-- The magnitudes requested by `claimHookin`: the decomposition of the
hookin amount minus `hi.Params.transactionConsolidationFee` (line 250). -/
def claimHookinMagnitudes (amount transactionConsolidationFee : Nat) : List Nat :=
  amountToMagnitudes (amount - transactionConsolidationFee)

lemma magnitudesSum_map_succ (l : List Nat) :
    magnitudesSum (l.map (fun m => m + 1)) = 2 * magnitudesSum l := by
  induction l with
  | nil => rfl
  | cons a l ih =>
    simp only [List.map_cons, magnitudesSum, List.sum_cons] at *
    rw [pow_succ, ih]
    ring

lemma magnitudesSum_amountToMagnitudes (n : Nat) :
    magnitudesSum (amountToMagnitudes n) = n := by
  induction n using Nat.strong_induction_on with
  | _ n ih =>
    rw [amountToMagnitudes]
    by_cases h : n = 0
    · rw [dif_pos h, h]; rfl
    · rw [dif_neg h]
      have hdiv : n / 2 < n := Nat.div_lt_self (Nat.pos_of_ne_zero h) (by norm_num)
      have hrec := ih (n / 2) hdiv
      by_cases hm : n % 2 = 1
      · rw [if_pos hm]
        have hs : magnitudesSum
            (0 :: (amountToMagnitudes (n / 2)).map (fun m => m + 1))
            = 2 ^ 0 + magnitudesSum ((amountToMagnitudes (n / 2)).map (fun m => m + 1)) := by
          simp [magnitudesSum]
        rw [hs, magnitudesSum_map_succ, hrec, pow_zero]
        omega
      · rw [if_neg hm, magnitudesSum_map_succ, hrec]
        omega

/-- C9: `claimHookin` requests coins whose magnitudes decompose
`hookin.amount - transactionConsolidationFee`, not the full amount, so the
total coin value minted for a hookin is the deposited amount less the
consolidation fee — strictly less than the full amount whenever the fee and
the amount are positive — while `claimBounty` decomposes the full bounty
amount. -/
theorem C9_hookin_consolidation_fee (amount fee : Nat) (hfee : fee ≤ amount) :
    claimHookinMagnitudes amount fee = amountToMagnitudes (amount - fee)
    ∧ magnitudesSum (claimHookinMagnitudes amount fee) = amount - fee
    ∧ magnitudesSum (claimBountyMagnitudes amount) = amount
    ∧ (0 < fee → magnitudesSum (claimHookinMagnitudes amount fee)
        < magnitudesSum (claimBountyMagnitudes amount)) := by
  refine ⟨rfl, ?_, ?_, ?_⟩
  · exact magnitudesSum_amountToMagnitudes (amount - fee)
  · exact magnitudesSum_amountToMagnitudes amount
  · intro hpos
    unfold claimHookinMagnitudes claimBountyMagnitudes
    rw [magnitudesSum_amountToMagnitudes, magnitudesSum_amountToMagnitudes]
    omega

/-- Witness for C9 at amount 10 and fee 3: the hookin magnitudes decompose
7 = 2^0 + 2^1 + 2^2, totalling 7, while the bounty magnitudes total 10. -/
theorem C9_hookin_consolidation_fee_witness :
    claimHookinMagnitudes 10 3 = amountToMagnitudes 7
    ∧ magnitudesSum (claimHookinMagnitudes 10 3) = 7
    ∧ magnitudesSum (claimBountyMagnitudes 10) = 10
    ∧ (0 < 3 → magnitudesSum (claimHookinMagnitudes 10 3)
        < magnitudesSum (claimBountyMagnitudes 10)) :=
  C9_hookin_consolidation_fee 10 3 (by decide)

/-! ## Coin selection: `coinselection.findAtLeast`
(src/wallet/coin-selection.ts is not among the given sources; it is called
by sendDirect at line 590 and sendToBitcoinAddress at line 655, and is
modelled here from the spec's section 4.4 policy.) -/

/-- Largest element of a list of coin values, if any. -/
def listMax : List Nat → Option Nat
  | [] => none
  | a :: rest =>
    match listMax rest with
    | none => some a
    | some m => some (max a m)

/-- Smallest element of a list of coin values, if any. -/
def listMin : List Nat → Option Nat
  | [] => none
  | a :: rest =>
    match listMin rest with
    | none => some a
    | some m => some (min a m)

/-- Modelled from the spec: the selection loop of `findAtLeast` — "greedily
take the largest coin ≤ remaining need repeatedly to cover the bulk, falling
back to the smallest available coin that still completes the target when no
equal-or-smaller perfect fit exists", reporting infeasibility when the coins
run out. The fuel argument bounds the recursion; every step consumes one
available coin, so `avail.length` of fuel suffices. -/
def greedyGo (fuel : Nat) (avail : List Nat) (remaining : Nat) : Option (List Nat) :=
  match fuel with
  | 0 => none
  | fuel + 1 =>
    if remaining = 0 then some []
    else
      match listMax (avail.filter (fun c => c ≤ remaining)) with
      | some c => (greedyGo fuel (avail.erase c) (remaining - c)).map (fun sel => c :: sel)
      | none =>
        match listMin avail with
        | some c => some [c]
        | none => none

/-- Modelled from the spec: `findAtLeast(coins, target)` selects a subset of
the coin values whose sum is at least the target by the greedy policy above
and returns it with `excess = sum(selected) - target`, or reports
infeasibility (`none`, the `InsufficientFunds` result). -/
def findAtLeast (coins : List Nat) (target : Nat) : Option (List Nat × Nat) :=
  match greedyGo (coins.length + 1) coins target with
  | none => none
  | some found => some (found, found.sum - target)

lemma listMax_mem : ∀ {l : List Nat} {a : Nat}, listMax l = some a → a ∈ l := by
  intro l
  induction l with
  | nil => intro a h; cases h
  | cons b rest ih =>
    intro a h
    unfold listMax at h
    cases hr : listMax rest with
    | none =>
      rw [hr] at h
      cases h
      exact List.mem_cons_self b rest
    | some m =>
      rw [hr] at h
      cases h
      rcases le_total b m with hbm | hmb
      · rw [max_eq_right hbm]
        exact List.mem_cons_of_mem b (ih hr)
      · rw [max_eq_left hmb]
        exact List.mem_cons_self b rest

lemma listMin_mem : ∀ {l : List Nat} {a : Nat}, listMin l = some a → a ∈ l := by
  intro l
  induction l with
  | nil => intro a h; cases h
  | cons b rest ih =>
    intro a h
    unfold listMin at h
    cases hr : listMin rest with
    | none =>
      rw [hr] at h
      cases h
      exact List.mem_cons_self b rest
    | some m =>
      rw [hr] at h
      cases h
      rcases le_total b m with hbm | hmb
      · rw [min_eq_left hbm]
        exact List.mem_cons_self b rest
      · rw [min_eq_right hmb]
        exact List.mem_cons_of_mem b (ih hr)

lemma listMax_eq_none : ∀ {l : List Nat}, listMax l = none → l = [] := by
  intro l h
  cases l with
  | nil => rfl
  | cons b rest =>
    unfold listMax at h
    cases hr : listMax rest with
    | none => rw [hr] at h; cases h
    | some m => rw [hr] at h; cases h

lemma listMin_eq_none : ∀ {l : List Nat}, listMin l = none → l = [] := by
  intro l h
  cases l with
  | nil => rfl
  | cons b rest =>
    unfold listMin at h
    cases hr : listMin rest with
    | none => rw [hr] at h; cases h
    | some m => rw [hr] at h; cases h

lemma sum_erase_of_mem {l : List Nat} {a : Nat} (h : a ∈ l) :
    (l.erase a).sum = l.sum - a := by
  have hperm : l.Perm (a :: l.erase a) := List.perm_cons_erase h
  have hsum : l.sum = a + (l.erase a).sum := by
    rw [hperm.sum_eq, List.sum_cons]
  omega

lemma le_sum_of_mem {l : List Nat} {a : Nat} (h : a ∈ l) : a ≤ l.sum := by
  have hperm : l.Perm (a :: l.erase a) := List.perm_cons_erase h
  have hsum : l.sum = a + (l.erase a).sum := by
    rw [hperm.sum_eq, List.sum_cons]
  omega

lemma greedyGo_sound : ∀ (fuel : Nat) (avail : List Nat) (remaining : Nat)
    (sel : List Nat), greedyGo fuel avail remaining = some sel →
    remaining ≤ sel.sum ∧ (↑sel : Multiset Nat) ≤ ↑avail := by
  intro fuel
  induction fuel with
  | zero => intro avail remaining sel h; cases h
  | succ fuel ih =>
    intro avail remaining sel h
    unfold greedyGo at h
    by_cases hz : remaining = 0
    · rw [if_pos hz] at h
      cases h
      subst hz
      exact ⟨Nat.zero_le _, by simp⟩
    · rw [if_neg hz] at h
      cases hmax : listMax (avail.filter (fun c => c ≤ remaining)) with
      | some c =>
        rw [hmax] at h
        dsimp only at h
        have hcfil := listMax_mem hmax
        have hcav : c ∈ avail := List.mem_of_mem_filter hcfil
        have hcle : c ≤ remaining := of_decide_eq_true (List.mem_filter.mp hcfil).2
        cases hrec : greedyGo fuel (avail.erase c) (remaining - c) with
        | none => rw [hrec] at h; cases h
        | some sel2 =>
          rw [hrec] at h
          cases h
          obtain ⟨hsum2, hsub2⟩ := ih _ _ _ hrec
          constructor
          · rw [List.sum_cons]
            omega
          · calc (↑(c :: sel2) : Multiset Nat) = c ::ₘ ↑sel2 := by rfl
              _ ≤ c ::ₘ ↑(avail.erase c) := Multiset.cons_le_cons c hsub2
              _ = ↑avail := by
                  rw [← Multiset.coe_erase]
                  exact Multiset.cons_erase (by exact_mod_cast hcav)
      | none =>
        rw [hmax] at h
        dsimp only at h
        cases hmin : listMin avail with
        | none => rw [hmin] at h; dsimp only at h; cases h
        | some c =>
          rw [hmin] at h
          dsimp only at h
          cases h
          have hcav : c ∈ avail := listMin_mem hmin
          have hnofit : c ∉ avail.filter (fun c => c ≤ remaining) := by
            rw [listMax_eq_none hmax]
            exact List.not_mem_nil c
          have hgt : ¬ c ≤ remaining := by
            intro hle
            exact hnofit (List.mem_filter.mpr ⟨hcav, decide_eq_true hle⟩)
          constructor
          · rw [List.sum_cons, List.sum_nil]
            omega
          · calc (↑[c] : Multiset Nat) = c ::ₘ 0 := by rfl
              _ ≤ c ::ₘ ↑(avail.erase c) := Multiset.cons_le_cons c (Multiset.zero_le _)
              _ = ↑avail := by
                  rw [← Multiset.coe_erase]
                  exact Multiset.cons_erase (by exact_mod_cast hcav)

lemma greedyGo_none_iff : ∀ (fuel : Nat) (avail : List Nat) (remaining : Nat),
    avail.length < fuel →
    (greedyGo fuel avail remaining = none ↔ avail.sum < remaining) := by
  intro fuel
  induction fuel with
  | zero => intro avail remaining h; omega
  | succ fuel ih =>
    intro avail remaining hlen
    unfold greedyGo
    by_cases hz : remaining = 0
    · rw [if_pos hz]
      subst hz
      simp
    · rw [if_neg hz]
      cases hmax : listMax (avail.filter (fun c => c ≤ remaining)) with
      | some c =>
        dsimp only
        have hcfil := listMax_mem hmax
        have hcav : c ∈ avail := List.mem_of_mem_filter hcfil
        have hcle : c ≤ remaining := of_decide_eq_true (List.mem_filter.mp hcfil).2
        have hcsum : c ≤ avail.sum := le_sum_of_mem hcav
        have hlen2 : (avail.erase c).length < fuel := by
          have := List.length_erase_add_one hcav
          omega
        have herase := sum_erase_of_mem hcav
        have hiff := ih (avail.erase c) (remaining - c) hlen2
        constructor
        · intro h
          have hrec : greedyGo fuel (avail.erase c) (remaining - c) = none := by
            cases hr : greedyGo fuel (avail.erase c) (remaining - c) with
            | none => rfl
            | some sel => rw [hr] at h; simp at h
          have := hiff.mp hrec
          omega
        · intro h
          have hrec : greedyGo fuel (avail.erase c) (remaining - c) = none :=
            hiff.mpr (by omega)
          rw [hrec]
          rfl
      | none =>
        dsimp only
        cases hmin : listMin avail with
        | none =>
          dsimp only
          have hnil := listMin_eq_none hmin
          subst hnil
          simp only [List.sum_nil]
          constructor
          · intro _; omega
          · intro _; trivial
        | some c =>
          dsimp only
          have hcav : c ∈ avail := listMin_mem hmin
          have hnofit : c ∉ avail.filter (fun c => c ≤ remaining) := by
            rw [listMax_eq_none hmax]
            exact List.not_mem_nil c
          have hgt : ¬ c ≤ remaining := by
            intro hle
            exact hnofit (List.mem_filter.mpr ⟨hcav, decide_eq_true hle⟩)
          have hcsum : c ≤ avail.sum := le_sum_of_mem hcav
          constructor
          · intro h; cases h
          · intro h; omega

/-- C8 (amended): `findAtLeast` returns a subset of the available coin
values whose sum is at least the target, together with
`excess = sum(selected) - target`, and reports infeasibility exactly when
the total available is below the target; on the spec's examples it selects
{4, 1} with excess 0 for target 5 from {1, 2, 4, 8}, both coins with excess
2 for target 6 from {4, 4}, and reports insufficiency for target 100 from a
pool totalling 50. (The selected subset need not minimize the excess; see
the counterexample.) -/
theorem C8_findAtLeast_spec (coins : List Nat) (target : Nat) :
    (∀ found excess, findAtLeast coins target = some (found, excess) →
      target ≤ found.sum ∧ excess = found.sum - target
      ∧ (↑found : Multiset Nat) ≤ ↑coins)
    ∧ (findAtLeast coins target = none ↔ coins.sum < target)
    ∧ findAtLeast [1, 2, 4, 8] 5 = some ([4, 1], 0)
    ∧ findAtLeast [4, 4] 6 = some ([4, 4], 2)
    ∧ findAtLeast [32, 16, 2] 100 = none := by
  refine ⟨?_, ?_, by decide, by decide, by decide⟩
  · intro found excess h
    unfold findAtLeast at h
    cases hg : greedyGo (coins.length + 1) coins target with
    | none => rw [hg] at h; cases h
    | some sel =>
      rw [hg] at h
      cases h
      obtain ⟨hsum, hsub⟩ := greedyGo_sound _ _ _ _ hg
      exact ⟨hsum, rfl, hsub⟩
  · unfold findAtLeast
    have hiff := greedyGo_none_iff (coins.length + 1) coins target (by omega)
    cases hg : greedyGo (coins.length + 1) coins target with
    | none =>
      simp only []
      constructor
      · intro _; exact hiff.mp hg
      · intro _; trivial
    | some sel =>
      simp only []
      constructor
      · intro h; cases h
      · intro h
        have : greedyGo (coins.length + 1) coins target = none := hiff.mpr h
        rw [hg] at this
        cases this

/-- Witness for C8 on the pool {1, 2, 4, 8} with target 5. -/
theorem C8_findAtLeast_spec_witness :
    5 ≤ ([4, 1] : List Nat).sum ∧ 0 = ([4, 1] : List Nat).sum - 5
    ∧ (↑([4, 1] : List Nat) : Multiset Nat) ≤ ↑([1, 2, 4, 8] : List Nat) :=
  (C8_findAtLeast_spec [1, 2, 4, 8] 5).1 [4, 1] 0 (by decide)

/-- Counterexample for C8 as stated: on the pool {4, 4, 1} with target 6 the
greedy policy selects [4, 1, 4] with excess 3, yet the subset {4, 4} is
feasible with excess 2, so the returned excess is not minimal. -/
theorem C8_minimality_counterexample :
    findAtLeast [4, 4, 1] 6 = some ([4, 1, 4], 3)
    ∧ 6 ≤ ([4, 4] : List Nat).sum
    ∧ ([4, 4] : List Nat).sum - 6 < 3
    ∧ (↑([4, 4] : List Nat) : Multiset Nat) ≤ ↑([4, 4, 1] : List Nat) := by
  refine ⟨by decide, by decide, by decide, ?_⟩
  decide

/-! ## Bitcoin address discovery: syncBitcoinAddresses (lines 296-331),
addBitcoinAddress (385-400), checkBitcoinAddress (403-409) and
addHookins (471-488) -/

/-- A receive reported by `fetchBitcoinReceives`: {txid, vout, amount}. -/
structure Receive where
  txid : Nat
  vout : Nat
  amount : Nat
deriving DecidableEq, Repr

/-- A `Docs.BitcoinAddress` row, keyed by address. The derivation
`deriveBitcoinAddressIndex` maps each index to a distinct address; the model
uses the index itself as the derived address (any injective map works). -/
structure BitcoinAddressDoc where
  address : Nat
  index : Nat
deriving DecidableEq, Repr

/-- A `Docs.Hookin` row, keyed by the hash of its content: (txid, vout,
amount, credited bitcoin address). -/
structure HookinDoc where
  txid : Nat
  vout : Nat
  amount : Nat
  bitcoinAddress : Nat
deriving DecidableEq, Repr

/-- The tables touched by address discovery. (Each detected hookin is also
routed through `claimHookin`; the claims and coins tables it touches are
covered by the claim-orchestration model above.) -/
structure ScanState where
  bitcoinAddresses : List BitcoinAddressDoc
  hookins : List HookinDoc
deriving DecidableEq, Repr

/-- Dexie `bitcoinAddresses.put`, keyed by address. -/
def putBitcoinAddress (d : BitcoinAddressDoc) (tbl : List BitcoinAddressDoc) :
    List BitcoinAddressDoc :=
  if tbl.any (fun x => x.address = d.address) then
    tbl.map (fun x => if x.address = d.address then d else x)
  else tbl ++ [d]

/-- Dexie `hookins.put`, keyed by the content hash (here the whole row
determines its key). -/
def putHookin (hk : HookinDoc) (tbl : List HookinDoc) : List HookinDoc :=
  if tbl.any (fun x => x = hk) then tbl.map (fun x => if x = hk then hk else x)
  else tbl ++ [hk]

/-- `addBitcoinAddress(index)`: derive the address for the index and put the
row. -/
def addBitcoinAddress (index : Nat) (st : ScanState) : ScanState :=
  { st with bitcoinAddresses := putBitcoinAddress ⟨index, index⟩ st.bitcoinAddresses }

/-- `addHookins(bitcoinAddressDoc, receives)`: put one hookin row per
receive, credited to the address. -/
def addHookins (address : Nat) (receives : List Receive) (st : ScanState) : ScanState :=
  receives.foldl
    (fun s r => { s with hookins := putHookin ⟨r.txid, r.vout, r.amount, address⟩ s.hookins })
    st

/-- The indices the hit-commit loop back-fills (line 318): `checkIndex - 1`
down to `lastAddressIndex + 1` (`lastAddressIndex` is -1, here `none`, for
an empty table). -/
def skippedIndices (lastIdx : Option Nat) (checkIndex : Nat) : List Nat :=
  match lastIdx with
  | none => (List.range checkIndex).reverse
  | some l => (List.range' (l + 1) (checkIndex - (l + 1))).reverse

/-- The probe loop of `syncBitcoinAddresses` (lines 309-330): while the gap
count is below the gap limit, fetch the receives of the next derived
address; on a hit, back-fill the skipped addresses, add the hit address and
its hookins, record it as last and reset the gap count; on a miss increment
the gap count. The fuel bounds the number of loop iterations. -/
def syncLoop (fetch : Nat → List Receive) (gapLimit : Nat) :
    Nat → Nat → Nat → Option Nat → ScanState → ScanState
  | 0, _, _, _, st => st
  | fuel + 1, checkIndex, gapCount, lastIdx, st =>
    if gapCount < gapLimit then
      let receives := fetch checkIndex
      if receives.length > 0 then
        let st1 := (skippedIndices lastIdx checkIndex).foldl
          (fun s i => addBitcoinAddress i s) st
        let st2 := addBitcoinAddress checkIndex st1
        let st3 := addHookins checkIndex receives st2
        syncLoop fetch gapLimit fuel (checkIndex + 1) 0 (some checkIndex) st3
      else
        syncLoop fetch gapLimit fuel (checkIndex + 1) (gapCount + 1) lastIdx st
    else st

/-- `syncBitcoinAddresses` (lines 296-331): first re-check every known
address in index order (`checkBitcoinAddress` = fetch + `addHookins`),
counting trailing empty probes; then run the probe loop from the highest
known index + 1. -/
def syncBitcoinAddresses (fetch : Nat → List Receive) (gapLimit fuel : Nat)
    (st : ScanState) : ScanState :=
  let sorted := st.bitcoinAddresses.insertionSort (fun a b => a.index ≤ b.index)
  let stepped := sorted.foldl
    (fun (p : Nat × ScanState) a =>
      let receives := fetch a.address
      (if receives.length > 0 then 0 else p.1 + 1, addHookins a.address receives p.2))
    (0, st)
  let lastIdx := (sorted.getLast?).map (fun a => a.index)
  let start := match lastIdx with | none => 0 | some l => l + 1
  syncLoop fetch gapLimit fuel start stepped.1 lastIdx stepped.2

/-- The receive oracle of the C3 scenario: receipts
only at derivation indices 0 and 4. -/
def receivesAt04 : Nat → List Receive :=
  fun i => if i = 0 then [⟨100, 0, 50⟩] else if i = 4 then [⟨200, 1, 60⟩] else []

lemma syncLoop_gap_reached (fetch : Nat → List Receive) (gapLimit fuel checkIndex gapCount : Nat)
    (lastIdx : Option Nat) (st : ScanState) (h : ¬ gapCount < gapLimit) :
    syncLoop fetch gapLimit fuel checkIndex gapCount lastIdx st = st := by
  cases fuel with
  | zero => rfl
  | succ fuel => simp [syncLoop, h]

/-- Counterexample for C3 as stated: with gap limit 3, an empty table and
receipts at indices 0 and 4, the scan stops before reaching index 4 — the
three empty probes at indices 1, 2 and 3 exhaust the gap limit — so it
creates the BitcoinAddress row for index 0 only (not rows for indices 0
through 7) and a Hookin only for index 0's receipt. -/
theorem C3_gap_limit_counterexample :
    (syncBitcoinAddresses receivesAt04 3 20 ⟨[], []⟩).bitcoinAddresses.map
        (fun a => a.index) = [0]
    ∧ (syncBitcoinAddresses receivesAt04 3 20 ⟨[], []⟩).hookins
        = [⟨100, 0, 50, 0⟩]
    ∧ ([0] : List Nat) ≠ List.range 8 := by
  refine ⟨by decide, by decide, by decide⟩

/-- C3 (amended): with configured gap limit 3, an empty bitcoinAddresses
table, and receipts only at derivation indices 0 and 4,
`syncBitcoinAddresses` creates the BitcoinAddress row exactly for index 0,
creates a Hookin only for index 0's receipt, and then stops probing: the
empty probes at indices 1-3 reach the gap limit before index 4 is checked.
The result is identical for every sufficient iteration bound. -/
theorem C3_gap_limit_scan (extraFuel : Nat) :
    syncBitcoinAddresses receivesAt04 3 (extraFuel + 5) ⟨[], []⟩
      = ⟨[⟨0, 0⟩], [⟨100, 0, 50, 0⟩]⟩ := by
  have h0 : ∀ m, syncLoop receivesAt04 3 (m + 1) 0 0 none ⟨[], []⟩
      = syncLoop receivesAt04 3 m 1 0 (some 0) ⟨[⟨0, 0⟩], [⟨100, 0, 50, 0⟩]⟩ := by
    intro m
    simp [syncLoop, receivesAt04, skippedIndices, addBitcoinAddress,
      putBitcoinAddress, addHookins, putHookin]
  have h1 : ∀ m, syncLoop receivesAt04 3 (m + 1) 1 0 (some 0)
        ⟨[⟨0, 0⟩], [⟨100, 0, 50, 0⟩]⟩
      = syncLoop receivesAt04 3 m 2 1 (some 0) ⟨[⟨0, 0⟩], [⟨100, 0, 50, 0⟩]⟩ := by
    intro m
    simp [syncLoop, receivesAt04]
  have h2 : ∀ m, syncLoop receivesAt04 3 (m + 1) 2 1 (some 0)
        ⟨[⟨0, 0⟩], [⟨100, 0, 50, 0⟩]⟩
      = syncLoop receivesAt04 3 m 3 2 (some 0) ⟨[⟨0, 0⟩], [⟨100, 0, 50, 0⟩]⟩ := by
    intro m
    simp [syncLoop, receivesAt04]
  have h3 : ∀ m, syncLoop receivesAt04 3 (m + 1) 3 2 (some 0)
        ⟨[⟨0, 0⟩], [⟨100, 0, 50, 0⟩]⟩
      = syncLoop receivesAt04 3 m 4 3 (some 0) ⟨[⟨0, 0⟩], [⟨100, 0, 50, 0⟩]⟩ := by
    intro m
    simp [syncLoop, receivesAt04]
  have hstart : syncBitcoinAddresses receivesAt04 3 (extraFuel + 5) ⟨[], []⟩
      = syncLoop receivesAt04 3 (extraFuel + 5) 0 0 none ⟨[], []⟩ := rfl
  rw [hstart,
    show extraFuel + 5 = (extraFuel + 4) + 1 from rfl, h0 (extraFuel + 4),
    show extraFuel + 4 = (extraFuel + 3) + 1 from rfl, h1 (extraFuel + 3),
    show extraFuel + 3 = (extraFuel + 2) + 1 from rfl, h2 (extraFuel + 2),
    show extraFuel + 2 = (extraFuel + 1) + 1 from rfl, h3 (extraFuel + 1)]
  exact syncLoop_gap_reached receivesAt04 3 (extraFuel + 1) 4 3 (some 0) _ (by omega)

/-- C1: for every coin in the store, `listUnspent` returns that coin if and
only if its hash is not contained in the `coinHashes` of any transfer whose
status kind is not `CONFLICTED`. Consequently a coin referenced by a `PENDING`
transfer is absent from `listUnspent`, reappears exactly when the transfers
referencing it have their status rewritten to `CONFLICTED`, and stays excluded
while a transfer referencing it is `ACKNOWLEDGED`. -/
theorem C1_listUnspent_spec (coins : List CoinDoc) (transfers : List TransferDoc)
    (c : CoinDoc) (hc : c ∈ coins) :
    (c ∈ listUnspent coins transfers ↔
      ∀ t ∈ transfers, t.status.kind ≠ "CONFLICTED" → c.hash ∉ t.coinHashes)
    ∧ (∀ t ∈ transfers, c.hash ∈ t.coinHashes → t.status = .pending →
        c ∉ listUnspent coins transfers)
    ∧ (∀ t ∈ transfers, c.hash ∈ t.coinHashes → (∃ a, t.status = .acknowledged a) →
        c ∉ listUnspent coins transfers)
    ∧ (∀ t : TransferDoc,
        (∀ u ∈ transfers, c.hash ∈ u.coinHashes → u.hash = t.hash) →
        c ∈ listUnspent coins (putTransfer { t with status := .conflicted } transfers)) := by
  refine ⟨?_, ?_, ?_, ?_⟩
  · rw [mem_listUnspent]
    exact ⟨fun h => h.2, fun h => ⟨hc, h⟩⟩
  · intro t ht hmem hstat hun
    have := (mem_listUnspent.mp hun).2 t ht (by rw [hstat]; simp [TStatus.kind]) hmem
    exact this
  · intro t ht hmem hstat hun
    obtain ⟨a, ha⟩ := hstat
    exact (mem_listUnspent.mp hun).2 t ht (by rw [ha]; simp [TStatus.kind]) hmem
  · intro t hall
    rw [mem_listUnspent]
    refine ⟨hc, ?_⟩
    intro u hu hk hmem
    rcases mem_putTransfer hu with rfl | ⟨hu', hkey⟩
    · exact hk rfl
    · exact hkey (hall u hu' hmem)

/-- Witness for C1 at a concrete store: one coin referenced by one pending
transfer is excluded, and reappears after that transfer is conflicted. -/
theorem C1_listUnspent_spec_witness :
    (⟨1, 0, 10, 20⟩ : CoinDoc) ∉
        listUnspent [⟨1, 0, 10, 20⟩] [⟨100, [⟨5, 1⟩], [1], [], none, .pending, 0⟩]
    ∧ (⟨1, 0, 10, 20⟩ : CoinDoc) ∈
        listUnspent [⟨1, 0, 10, 20⟩]
          (putTransfer
            { (⟨100, [⟨5, 1⟩], [1], [], none, .pending, 0⟩ : TransferDoc) with
                status := .conflicted }
            [⟨100, [⟨5, 1⟩], [1], [], none, .pending, 0⟩]) := by
  constructor
  · exact (C1_listUnspent_spec [⟨1, 0, 10, 20⟩] [⟨100, [⟨5, 1⟩], [1], [], none, .pending, 0⟩]
      ⟨1, 0, 10, 20⟩ (by simp)).2.1 ⟨100, [⟨5, 1⟩], [1], [], none, .pending, 0⟩ (by simp)
      (by simp) rfl
  · refine (C1_listUnspent_spec [⟨1, 0, 10, 20⟩] [⟨100, [⟨5, 1⟩], [1], [], none, .pending, 0⟩]
      ⟨1, 0, 10, 20⟩ (by simp)).2.2.2 ⟨100, [⟨5, 1⟩], [1], [], none, .pending, 0⟩ ?_
    intro u hu hmem
    have : u = ⟨100, [⟨5, 1⟩], [1], [], none, .pending, 0⟩ := by simpa using hu
    rw [this]

end Hundredeyes
